import Mathlib

/-!
Verification of the DetectGPT pipeline notebooks.

Texts are modelled as `List Char` (Python `str`), batches as lists.
Model inference (scoring model, T5 infill model, tokenizers) is an external
collaborator: it enters the embedding as an abstract function producing, per
text, the per-token (loss, valid-bit) pairs after the next-token shift.
Randomness (the span sampler, nucleus sampling) enters as an explicit draw
argument, constrained by the sampler's contract where a theorem needs it.
Python floats are modelled as `ℚ` where the code only adds, divides and
compares, and as `ℝ` where the code takes a square root (`np.std`).
Fallible Python code (exceptions) returns `Except`.
-/

/-! ### Basic Python string helpers -/

/-- Python `str.split()`: split on runs of whitespace, dropping empty pieces.
Accumulator holds the current word reversed. -/
def pySplitAux : List Char → List Char → List (List Char)
  | [], acc => if acc.isEmpty then [] else [acc.reverse]
  | c :: rest, acc =>
    if c.isWhitespace then
      if acc.isEmpty then pySplitAux rest [] else acc.reverse :: pySplitAux rest []
    else pySplitAux rest (c :: acc)

/-- Python `str.split()` with no arguments. -/
def pySplit (s : List Char) : List (List Char) := pySplitAux s []

/-- Python `str.strip()`: drop leading and trailing whitespace. -/
def pyStrip (s : List Char) : List Char :=
  ((s.dropWhile Char.isWhitespace).reverse.dropWhile Char.isWhitespace).reverse

/-- Python `" ".join(words)`. -/
def joinWords (ws : List (List Char)) : List Char := List.intercalate [' '] ws

/-- Python `str.count(pat)` (non-overlapping, left to right), via a skip
counter so the recursion is structural: `skip` counts characters still to be
consumed from the previous match. -/
def countSkip (pat : List Char) : ℕ → List Char → ℕ
  | _, [] => 0
  | k+1, _ :: rest => countSkip pat k rest
  | 0, c :: rest =>
    if pat.isPrefixOf (c :: rest) then 1 + countSkip pat (pat.length - 1) rest
    else countSkip pat 0 rest

/-- Python `s.count(pat)`. -/
def pyCount (pat s : List Char) : ℕ := countSkip pat 0 s

/-- Python `s.replace(pat, "")`: remove every non-overlapping occurrence,
left to right, without rescanning produced text. -/
def removeAllAux (pat : List Char) : ℕ → List Char → List Char
  | _, [] => []
  | k+1, _ :: rest => removeAllAux pat k rest
  | 0, c :: rest =>
    if pat.isPrefixOf (c :: rest) then removeAllAux pat (pat.length - 1) rest
    else c :: removeAllAux pat 0 rest

/-- Python `s.replace(pat, "")`. -/
def removeAll (pat s : List Char) : List Char := removeAllAux pat 0 s

/-- Python `s.replace(pat, repl, 1)`: replace the first occurrence only. -/
def replaceFirst (pat repl : List Char) : List Char → List Char
  | [] => []
  | c :: rest =>
    if pat.isPrefixOf (c :: rest) then repl ++ (c :: rest).drop pat.length
    else c :: replaceFirst pat repl rest

/-! ### Decimal rendering of an index (Python f-string `{i}`) -/

/-- The character of a decimal digit `d < 10`. -/
def digitChar (d : ℕ) : Char := Char.ofNat (48 + d)

/-- Decimal digits of `n`, most significant first; fueled so the recursion is
structural (fuel `n + 1` always suffices). -/
def natGo : ℕ → ℕ → List Char
  | 0, _ => []
  | f+1, n => if n < 10 then [digitChar n] else natGo f (n / 10) ++ [digitChar (n % 10)]

/-- Decimal rendering of a natural number. -/
def natDigits (n : ℕ) : List Char := natGo (n + 1) n

/-- Value of a digit string, used to prove `natDigits` injective. -/
def digitsVal (l : List Char) : ℕ := l.foldl (fun a c => 10 * a + (c.toNat - 48)) 0

/-! ### Placeholder markers -/

/-- The literal `"<extra_id_"` that opens every T5 placeholder marker. -/
def markerLit : List Char := ['<', 'e', 'x', 't', 'r', 'a', '_', 'i', 'd', '_']

/-- The full marker `f"<extra_id_{i}>"` for index `i`. -/
def markerChars (i : ℕ) : List Char := markerLit ++ natDigits i ++ ['>']

/-- A marker with an explicit digit string (used to describe raw strings whose
marker indices are arbitrary digit runs, as matched by `\d+`). -/
def markerOfDigits (ds : List Char) : List Char := markerLit ++ ds ++ ['>']

/-! ### Span Masker (`batch_mask_text`) -/

/-- `num_masks = int(len(words) * mask_ratio)`: truncation of a non-negative
product is the floor. -/
def num_masks (L : ℕ) (r : ℚ) : ℕ := (Int.toNat ⌊(L : ℚ) * r⌋)

/-- One iteration of the masking loop: `words[idx] = f"<extra_id_{i}>"`, then
`del words[idx+1]` when a following word exists. -/
def applyMaskStep (words : List (List Char)) (i idx : ℕ) : List (List Char) :=
  let ws := words.set idx (markerChars i)
  if idx + 1 < ws.length then ws.eraseIdx (idx + 1) else ws

/-- The masking loop `for i, idx in enumerate(mask_indices)`, with placeholder
numbering starting at `k`. -/
def mask_words_from (k : ℕ) (words : List (List Char)) : List ℕ → List (List Char)
  | [] => words
  | idx :: rest => mask_words_from (k + 1) (applyMaskStep words k idx) rest

/-- Apply the masking loop to a drawn index list (the source draws the indices
distinct from `[0, L-2]` and processes them in descending order). -/
def mask_words (words : List (List Char)) (idxs : List ℕ) : List (List Char) :=
  mask_words_from 0 words idxs

/-- Failure conditions of the Span Masker. `samplerValueError` models the
`ValueError` that `np.random.choice` / `random.sample` raise when asked for
more distinct values than the population holds; `invalidMaskRatio` models the
spec's dedicated condition raised by validation before sampling, which the
source never performs, so the code-faithful model never produces it. -/
inductive MaskErr where
  | samplerValueError : MaskErr
  | invalidMaskRatio : MaskErr
deriving DecidableEq

/-- The per-text body of `batch_mask_text` on an already split-and-truncated
word list. The random draw is an explicit argument: when the sampler cannot
produce `num_masks` distinct indices from `[0, L-2]` it raises, which is the
error branch; otherwise the drawn indices are applied. -/
def mask_one (r : ℚ) (words : List (List Char)) (draw : List ℕ) :
    Except MaskErr (List (List Char)) :=
  let L := words.length
  let num := num_masks L r
  if 0 < num then
    if L - 1 < num then Except.error MaskErr.samplerValueError
    else Except.ok (mask_words words draw)
  else Except.ok words

/-- The per-text `batch_mask_text` step: split, truncate to `maxW` words,
mask, join with single spaces. -/
def mask_text (r : ℚ) (maxW : ℕ) (text : List Char) (draw : List ℕ) :
    Except MaskErr (List Char) :=
  (mask_one r ((pySplit text).take maxW) draw).map joinWords

/-! ### Infill Requester (`batch_replace_masks`): chunking and stop token -/

/-- Chunks of size `b` in order, as produced by
`for i in range(0, len(texts), batch_size)`; fueled (fuel `l.length` suffices
whenever `0 < b`). -/
def chunkedF (b : ℕ) : ℕ → List α → List (List α)
  | 0, _ => []
  | _+1, [] => []
  | f+1, x :: xs => (x :: xs).take b :: chunkedF b f ((x :: xs).drop b)

/-- Chunks of size `b` in order. -/
def chunked (b : ℕ) (l : List α) : List (List α) := chunkedF b l.length l

/-- The stop condition handed to the infill model: either the token of a
placeholder marker of a given index, or the model's end-of-sequence token. -/
inductive StopTok where
  | placeholder : ℕ → StopTok
  | eos : StopTok
deriving DecidableEq

/-- Stop-token selection of `batch_replace_masks` for one chunk:
`n_expected = [text.count("<extra_id_") for text in batch_texts]`, then
`encode(f"<extra_id_{max(n_expected)}>")[0] if n_expected else eos_token_id`.
Note the fallback tests the list `n_expected` itself for emptiness. -/
def stop_token (batch_texts : List (List Char)) : StopTok :=
  match batch_texts.map (fun t => pyCount markerLit t) with
  | [] => StopTok.eos
  | h :: tl => StopTok.placeholder (tl.foldl max h)

/-! ### Fill Extractor (`batch_extract_fills`) -/

/-- Continue a `\d+>` parse: consume digits, accept on `'>'`. -/
def parseNumCont : List Char → Option (List Char)
  | [] => none
  | c :: rest =>
    if c.isDigit then parseNumCont rest
    else if c = '>' then some rest else none

/-- Parse `\d+>`: at least one digit then `'>'`, returning the remainder. -/
def parseNum : List Char → Option (List Char)
  | [] => none
  | c :: rest => if c.isDigit then parseNumCont rest else none

/-- Parse a full placeholder marker `<extra_id_\d+>` at the head of `s`,
returning the remainder after the marker. -/
def markerAt (s : List Char) : Option (List Char) :=
  if markerLit.isPrefixOf s then parseNum (s.drop markerLit.length) else none

/-- Split `s` into the segment before its first marker occurrence and the
remainder starting at that marker (or `(s, [])` when no marker occurs). -/
def findMarkerSplit : List Char → List Char × List Char
  | [] => ([], [])
  | c :: r =>
    match markerAt (c :: r) with
    | some _ => ([], c :: r)
    | none =>
      let p := findMarkerSplit r
      (c :: p.1, p.2)

/-- The scan of `re.findall(r"<extra_id_\d+>\s*(.*?)\s*(?=<extra_id_\d+>|$)", s)`.
At a marker, the candidate capture is the whitespace-trimmed segment up to the
next marker (or end of string); since `.` does not match a newline, the match
fails — and the engine moves on by one character — exactly when that trimmed
segment still contains a newline.  A skip counter makes the jump to the next
marker structural. -/
def scanAux : ℕ → List Char → List (List Char)
  | _, [] => []
  | k+1, _ :: rest => scanAux k rest
  | 0, c :: rest =>
    match markerAt (c :: rest) with
    | none => scanAux 0 rest
    | some after =>
      let p := findMarkerSplit after
      let cap := pyStrip p.1
      if '\n' ∈ cap then scanAux 0 rest
      else cap :: scanAux ((c :: rest).length - p.2.length - 1) rest

/-- The literal tokens stripped before extraction. -/
def padTok : List Char := ['<', 'p', 'a', 'd', '>']

/-- The literal end-of-sequence token stripped before extraction. -/
def eosTok : List Char := ['<', '/', 's', '>']

/-- The cleanup `text.replace("<pad>", "").replace("</s>", "").strip()`. -/
def cleanRaw (raw : List Char) : List Char :=
  pyStrip (removeAll eosTok (removeAll padTok raw))

/-- Per-text body of `batch_extract_fills`: cleanup then regex scan. -/
def extract_fills (raw : List Char) : List (List Char) :=
  scanAux 0 (cleanRaw raw)

/-- A raw infill output in structural form: a run of placeholder markers
(each with an explicit digit string) followed by their fill texts. -/
def renderFills : List (List Char × List Char) → List Char
  | [] => []
  | (ds, f) :: rest => markerOfDigits ds ++ f ++ renderFills rest

/-- No placeholder marker `<extra_id_\d+>` occurs as a substring of `s`:
the marker parser fails at every position (an abbreviation, so that the
bounded quantifier stays decidable for concrete strings). -/
abbrev noMarker (s : List Char) : Prop :=
  ∀ i < s.length, markerAt (s.drop i) = none

/-! ### Fill Applier (`batch_apply_extracted_fills` / `replace_masks`) -/

/-- The loop `for i, fill in enumerate(fills): text = text.replace(f"<extra_id_{i}>", fill, 1)`,
with the index starting at `k`. -/
def replace_masks_from (k : ℕ) (t : List Char) : List (List Char) → List Char
  | [] => t
  | f :: fs => replace_masks_from (k + 1) (replaceFirst (markerChars k) f t) fs

/-- `replace_masks(text, fills)`. -/
def replace_masks (t : List Char) (fills : List (List Char)) : List Char :=
  replace_masks_from 0 t fills

/-- Per-pair body of `batch_apply_extracted_fills`:
`masked_text if not fills else replace_masks(masked_text, fills)`. -/
def apply_extracted_fills (masked : List Char) (fills : List (List Char)) : List Char :=
  if fills.isEmpty then masked else replace_masks masked fills

/-- A masked text as the Masker produces it: alternating plain segments and
placeholder markers, closed by a final segment. -/
def assemble : List (List Char × ℕ) → List Char → List Char
  | [], last => last
  | (s, j) :: ps, last => s ++ markerChars j ++ assemble ps last

/-- `assemble` with every marker `j` replaced by `subst j`. -/
def assembleWith (subst : ℕ → List Char) : List (List Char × ℕ) → List Char → List Char
  | [], last => last
  | (s, j) :: ps, last => s ++ subst j ++ assembleWith subst ps last

/-- The substitution the Applier realises when handed `fills` with indices
starting at `k`: marker `j` becomes `fills[j - k]` when that fill exists, and
stays a literal marker otherwise. -/
def substFrom (k : ℕ) (fills : List (List Char)) (j : ℕ) : List Char :=
  if k ≤ j then fills.getD (j - k) (markerChars j) else markerChars j

/-! ### Log-Probability Scorer (`batch_average_log_prob`) -/

/-- An average log-probability: a finite value or exactly negative infinity. -/
inductive LogProb where
  | negInf : LogProb
  | val : ℚ → LogProb
deriving DecidableEq

/-- `shift_mask.sum(dim=1)`: the number of valid (non-padding, post-shift)
tokens of one sequence, whose per-token data is a list of
(cross-entropy loss, attention-mask bit) pairs. -/
def validTokenCount (toks : List (ℚ × Bool)) : ℕ :=
  (toks.filter (fun p => p.2)).length

/-- `(loss_per_token * shift_mask).sum(dim=1)`: masked positions contribute
zero. -/
def maskedLossSum (toks : List (ℚ × Bool)) : ℚ :=
  (toks.map (fun p => if p.2 then p.1 else 0)).sum

/-- Per-sequence reduction of `batch_average_log_prob`: divide the masked loss
sum by the valid-token count clamped to a minimum of 1, negate, then override
the result with negative infinity when the valid-token count is zero. -/
def seqAvgLogProb (toks : List (ℚ × Bool)) : LogProb :=
  let n := validTokenCount toks
  let masked := maskedLossSum toks / ((max n 1 : ℕ) : ℚ)
  if n = 0 then LogProb.negInf else LogProb.val (-masked)

/-- `batch_average_log_prob`: process the texts in sub-batches of size `b`,
strictly in order, extending one result list.  `score` is the external
scoring capability: tokenizer plus teacher-forced model, yielding each text's
per-token (loss, valid-bit) pairs after the shift. -/
def batch_average_log_prob (score : α → List (ℚ × Bool)) (texts : List α) (b : ℕ) :
    List LogProb :=
  ((chunked b texts).map (fun chunk => chunk.map (fun t => seqAvgLogProb (score t)))).flatten

/-! ### Discrepancy Aggregator (`compute_detectgpt_discrepancy`) -/

/-- `np.mean` of a list of doubles. -/
noncomputable def npMean (l : List ℝ) : ℝ := l.sum / l.length

/-- `np.std(l, ddof=1)`: square root of the sum of squared deviations divided
by `n - 1`. -/
noncomputable def npStd1 (l : List ℝ) : ℝ :=
  Real.sqrt ((l.map (fun x => (x - npMean l) ^ 2)).sum / ((l.length : ℝ) - 1))

/-- The normalizing variant of `compute_detectgpt_discrepancy` (the notebook
version with a `normalization` flag): iterate `zip(base, transformed)`;
per text, `d = base - mean(transformed)`, divided by the sample standard
deviation when normalizing and that deviation is positive, else `0`. -/
noncomputable def compute_detectgpt_discrepancy (base : List ℝ)
    (transformed : List (List ℝ)) (normalization : Bool) : List ℝ :=
  (base.zip transformed).map (fun p =>
    let mu := npMean p.2
    let d := p.1 - mu
    if normalization then
      if npStd1 p.2 > 0 then d / npStd1 p.2 else 0
    else d)

/-- Python runtime errors the unnormalized aggregator can raise. -/
inductive PyErr where
  | zeroDivisionError : PyErr
  | indexError : PyErr
deriving DecidableEq

/-- The loop `for i in range(num_samples)` of the unnormalized aggregator:
read `transformed[i]` (an `IndexError` when absent), compute
`mu = sum(perturbed) / len(perturbed)` with no emptiness guard — a length of
zero raises `ZeroDivisionError` — and append `base[i] - mu`; the first raise
aborts the loop. -/
def noflagLoop (base : List ℚ) (transformed : List (List ℚ)) :
    List ℕ → Except PyErr (List ℚ)
  | [] => Except.ok []
  | i :: is =>
    match base[i]?, transformed[i]? with
    | some olp, some ps =>
      if ps.length = 0 then Except.error PyErr.zeroDivisionError
      else
        match noflagLoop base transformed is with
        | Except.error e => Except.error e
        | Except.ok rest => Except.ok ((olp - ps.sum / (ps.length : ℚ)) :: rest)
    | _, _ => Except.error PyErr.indexError

/-- The unnormalized `compute_detectgpt_discrepancy` variant (no
`normalization` flag). -/
def compute_detectgpt_discrepancy_noflag (base : List ℚ)
    (transformed : List (List ℚ)) : Except PyErr (List ℚ) :=
  noflagLoop base transformed (List.range base.length)

/-! ## Lemmas about sub-batching -/

/-- Concatenating the chunks in order recovers the input list. -/
theorem chunkedF_flatten {α : Type} (b : ℕ) (hb : 0 < b) :
    ∀ (fuel : ℕ) (l : List α), l.length ≤ fuel → (chunkedF b fuel l).flatten = l := by
  intro fuel
  induction fuel with
  | zero =>
    intro l hl
    have : l = [] := List.eq_nil_of_length_eq_zero (Nat.le_zero.mp hl)
    subst this
    rfl
  | succ f ih =>
    intro l hl
    cases l with
    | nil => rfl
    | cons x xs =>
      have hdrop : ((x :: xs).drop b).length ≤ f := by
        rw [List.length_drop]
        have : (x :: xs).length - b ≤ (x :: xs).length - 1 :=
          Nat.sub_le_sub_left hb (x :: xs).length
        exact le_trans this (by simpa using Nat.sub_le_sub_right hl 1)
      calc (chunkedF b (f + 1) (x :: xs)).flatten
          = (x :: xs).take b ++ (chunkedF b f ((x :: xs).drop b)).flatten := rfl
        _ = (x :: xs).take b ++ (x :: xs).drop b := by rw [ih _ hdrop]
        _ = x :: xs := List.take_append_drop b (x :: xs)

/-- `chunked` version of `chunkedF_flatten`. -/
theorem chunked_flatten {α : Type} (b : ℕ) (hb : 0 < b) (l : List α) :
    (chunked b l).flatten = l :=
  chunkedF_flatten b hb l.length l le_rfl

/-- Every chunk of a positive chunk size is non-empty. -/
theorem chunkedF_ne_nil {α : Type} (b : ℕ) (hb : 0 < b) :
    ∀ (fuel : ℕ) (l : List α), ∀ c ∈ chunkedF b fuel l, c ≠ [] := by
  intro fuel
  induction fuel with
  | zero => intro l c hc; simp [chunkedF] at hc
  | succ f ih =>
    intro l c hc
    cases l with
    | nil => simp [chunkedF] at hc
    | cons x xs =>
      rcases List.mem_cons.mp hc with hc | hc
      · subst hc
        cases b with
        | zero => exact absurd hb (by simp)
        | succ b' => simp [List.take]
      · exact ih _ _ hc

/-- The batch scorer evaluates each text with `seqAvgLogProb ∘ score`, in
input order. -/
theorem batch_average_log_prob_eq_map {α : Type} (score : α → List (ℚ × Bool))
    (texts : List α) (b : ℕ) (hb : 0 < b) :
    batch_average_log_prob score texts b
      = texts.map (fun t => seqAvgLogProb (score t)) := by
  unfold batch_average_log_prob
  rw [← List.map_flatten, chunked_flatten b hb]

/-- The per-sequence reduction, with the clamp eliminated in the
non-degenerate case. -/
theorem seqAvgLogProb_spec (toks : List (ℚ × Bool)) :
    seqAvgLogProb toks =
      if validTokenCount toks = 0 then LogProb.negInf
      else LogProb.val (-(maskedLossSum toks / (validTokenCount toks : ℚ))) := by
  unfold seqAvgLogProb
  by_cases h : validTokenCount toks = 0
  · simp [h]
  · have hmax : max (validTokenCount toks) 1 = validTokenCount toks :=
      Nat.max_eq_left (Nat.one_le_iff_ne_zero.mpr h)
    simp [h, hmax]

/-- C1: the Log-Probability Scorer returns one value per sequence — exactly
negative infinity when the sequence's valid (non-padding, post-shift) token
count is 0, and otherwise the negation of the masked per-token loss sum
(padding positions contributing zero) divided by the true valid-token count,
the clamp never altering a non-degenerate result. -/
theorem log_prob_scorer_value_spec {α : Type} (score : α → List (ℚ × Bool))
    (texts : List α) (b : ℕ) (hb : 0 < b) :
    batch_average_log_prob score texts b = texts.map (fun t =>
      if validTokenCount (score t) = 0 then LogProb.negInf
      else LogProb.val (-(maskedLossSum (score t) / (validTokenCount (score t) : ℚ)))) := by
  rw [batch_average_log_prob_eq_map score texts b hb]
  exact List.map_congr_left (fun t _ => seqAvgLogProb_spec (score t))

/-- Witness for `log_prob_scorer_value_spec`: a two-token sequence with one
padded position scores `-(2/1)`, and an all-padding sequence scores exactly
negative infinity. -/
theorem log_prob_scorer_value_spec_witness :
    batch_average_log_prob
        (fun n : ℕ => if n = 0 then [((2 : ℚ), true), (3, false)] else []) [0, 1] 1
      = [LogProb.val (-2), LogProb.negInf] := by
  rw [log_prob_scorer_value_spec _ _ _ (by norm_num)]
  norm_num [validTokenCount, maskedLossSum, List.filter]

/-- C9: with any sub-batch size `0 < b < K` and `K ≥ 2` texts, the Scorer
returns exactly `K` results, ordered identically to the input: sub-batches
run sequentially and concatenate in input order. -/
theorem log_prob_scorer_order_spec {α : Type} (score : α → List (ℚ × Bool))
    (texts : List α) (b : ℕ) (hK : 2 ≤ texts.length) (hb : 0 < b)
    (hbK : b < texts.length) :
    (batch_average_log_prob score texts b).length = texts.length ∧
    batch_average_log_prob score texts b
      = texts.map (fun t => seqAvgLogProb (score t)) := by
  have h := batch_average_log_prob_eq_map score texts b hb
  exact ⟨by rw [h, List.length_map], h⟩

/-- Witness for `log_prob_scorer_order_spec`: two texts with distinct scores,
sub-batch size 1, results in input order. -/
theorem log_prob_scorer_order_spec_witness :
    (batch_average_log_prob (fun n : ℕ => [((n : ℚ), true)]) [5, 7] 1).length = 2 ∧
    batch_average_log_prob (fun n : ℕ => [((n : ℚ), true)]) [5, 7] 1
      = [LogProb.val (-5), LogProb.val (-7)] := by
  have h := log_prob_scorer_order_spec (fun n : ℕ => [((n : ℚ), true)]) [5, 7] 1
    (by norm_num) (by norm_num) (by norm_num)
  refine ⟨h.1, h.2.trans ?_⟩
  norm_num [seqAvgLogProb, validTokenCount, maskedLossSum, List.filter]

/-! ## Lemmas about the discrepancy aggregators -/

/-- The loop of the unnormalized aggregator never reaches its
division-by-zero branch when every per-text perturbed list is non-empty. -/
theorem noflagLoop_ne_zeroDiv (base : List ℚ) (transformed : List (List ℚ))
    (hne : ∀ l ∈ transformed, l ≠ []) (idxs : List ℕ) :
    noflagLoop base transformed idxs ≠ Except.error PyErr.zeroDivisionError := by
  induction idxs with
  | nil => simp [noflagLoop]
  | cons i is ih =>
    unfold noflagLoop
    cases hb : base[i]? with
    | none => simp [hb]
    | some olp =>
      cases ht : transformed[i]? with
      | none => simp [hb, ht]
      | some ps =>
        have hmem : ps ∈ transformed := by
          rcases List.getElem?_eq_some_iff.mp ht with ⟨hlt, hraw⟩
          exact hraw ▸ List.getElem_mem hlt
        have hlen : ps.length ≠ 0 :=
          fun h0 => (hne ps hmem) (List.eq_nil_of_length_eq_zero h0)
        cases hrec : noflagLoop base transformed is with
        | error e =>
          have : e ≠ PyErr.zeroDivisionError := by
            intro he; exact ih (he ▸ hrec)
          simp [hb, ht, hlen, hrec, this]
        | ok rest => simp [hb, ht, hlen, hrec]

/-- C10: the unnormalized aggregator divides each per-text sum by the list
length with no emptiness guard — when every per-text list is non-empty the
division-by-zero branch is unreachable, and an input containing an empty
per-text list fails with a `ZeroDivisionError` instead of returning a value. -/
theorem noflag_aggregator_division_spec :
    (∀ (base : List ℚ) (transformed : List (List ℚ)),
      (∀ l ∈ transformed, l ≠ []) →
      compute_detectgpt_discrepancy_noflag base transformed
        ≠ Except.error PyErr.zeroDivisionError) ∧
    compute_detectgpt_discrepancy_noflag [-2] [[]]
      = Except.error PyErr.zeroDivisionError := by
  constructor
  · intro base transformed hne
    exact noflagLoop_ne_zeroDiv base transformed hne _
  · rfl

/-- Witness for `noflag_aggregator_division_spec`: a non-empty per-text list
never reaches the division by zero. -/
theorem noflag_aggregator_division_spec_witness :
    compute_detectgpt_discrepancy_noflag [1] [[2]]
      ≠ Except.error PyErr.zeroDivisionError :=
  noflag_aggregator_division_spec.1 [1] [[2]] (by simp)

/-! ## Lemmas about the Span Masker -/

/-- C4 counterexample: on a text whose requested mask count exceeds the
available positions (3 words, ratio 1, so `num_masks = 3 > 2 = L - 1`), the
masker does fail — but with the `ValueError` raised from inside the sampling
call, not with an `InvalidMaskRatio` condition validated before sampling:
no validation precedes the sampler in the source. -/
theorem masker_overflow_counterexample :
    mask_one 1 (["a", "b", "c"].map String.toList) []
        = Except.error MaskErr.samplerValueError ∧
    mask_one 1 (["a", "b", "c"].map String.toList) []
        ≠ Except.error MaskErr.invalidMaskRatio := by
  have hnum : num_masks 3 1 = 3 := by norm_num [num_masks] <;> decide
  constructor
  · unfold mask_one
    simp [hnum]
  · unfold mask_one
    simp [hnum]

/-- C4 (amended): whenever `num_masks > 0` exceeds `L - 1`, the masker fails
with the sampler's `ValueError` (raised inside `np.random.choice`, with no
prior validation), rather than deadlocking or returning a masked text. -/
theorem masker_overflow_spec (r : ℚ) (words : List (List Char)) (draw : List ℕ)
    (h1 : 0 < num_masks words.length r)
    (h2 : words.length - 1 < num_masks words.length r) :
    mask_one r words draw = Except.error MaskErr.samplerValueError := by
  unfold mask_one
  simp [h1, h2]

/-- Witness for `masker_overflow_spec`. -/
theorem masker_overflow_spec_witness :
    mask_one 1 (["x", "y"].map String.toList) []
      = Except.error MaskErr.samplerValueError :=
  masker_overflow_spec 1 (["x", "y"].map String.toList) []
    (by norm_num [num_masks] <;> decide)
    (by norm_num [num_masks] <;> decide)

/-- C5 counterexample: a single-word text with mask ratio `1 ∈ (0, 1]` gives
`num_masks = int(1 * 1.0) = 1`, not `0`; instead of returning the text
unchanged, the masker's sampling over the empty range `[0, L-2]` raises. -/
theorem masker_single_word_counterexample :
    num_masks 1 1 = 1 ∧
    mask_one 1 [['h', 'i']] [] = Except.error MaskErr.samplerValueError := by
  have hnum : num_masks 1 1 = 1 := by norm_num [num_masks] <;> decide
  exact ⟨hnum, by unfold mask_one; simp [hnum]⟩

/-- C5 (amended): for a text with fewer than two words after truncation and
any mask ratio `r ∈ (0, 1)`, `num_masks` degenerates to 0, no masking occurs,
and the masker returns the text's words joined by single spaces. -/
theorem masker_few_words_spec (r : ℚ) (maxW : ℕ) (text : List Char)
    (draw : List ℕ) (hL : ((pySplit text).take maxW).length ≤ 1)
    (h0 : 0 < r) (h1 : r < 1) :
    mask_text r maxW text draw
      = Except.ok (joinWords ((pySplit text).take maxW)) := by
  have hfloor : ⌊r⌋ = 0 := Int.floor_eq_zero_iff.mpr ⟨le_of_lt h0, h1⟩
  have hnum : num_masks ((pySplit text).take maxW).length r = 0 := by
    unfold num_masks
    interval_cases h : ((pySplit text).take maxW).length
    · simp
    · simp [hfloor]
  unfold mask_text mask_one
  simp only [List.length_take] at hnum
  simp [hnum, Except.map]

/-- Witness for `masker_few_words_spec`: a one-word text at ratio `1/2` is
returned unchanged. -/
theorem masker_few_words_spec_witness :
    mask_text (1/2) 370 "hello".toList [] = Except.ok "hello".toList := by
  rw [masker_few_words_spec (1/2) 370 "hello".toList []
    (by decide) (by norm_num) (by norm_num)]
  rfl

/-- C3: evaluating the masking loop at the failing input.  Seven words with
ratio `3/10` require `num_masks = 2`; the (valid) sampler draw `{4, 5}`,
processed in descending order `[5, 4]`, first writes `<extra_id_0>` at
index 5 and deletes index 6, then writes `<extra_id_1>` at index 4 — whose
span deletion removes the just-written `<extra_id_0>`.  The output carries a
single placeholder with index set `{1}`, violating the masking invariant
(exactly `floor(L*r)` placeholders, index set `{0, ..., num_masks-1}`). -/
theorem masker_adjacent_spans_eval :
    num_masks 7 (3/10) = 2 ∧
    mask_words (["a", "b", "c", "d", "e", "f", "g"].map String.toList) [5, 4]
      = (["a", "b", "c", "d", "<extra_id_1>"].map String.toList) ∧
    ((mask_words (["a", "b", "c", "d", "e", "f", "g"].map String.toList) [5, 4]).count
        "<extra_id_0>".toList) = 0 ∧
    ((mask_words (["a", "b", "c", "d", "e", "f", "g"].map String.toList) [5, 4]).count
        "<extra_id_1>".toList) = 1 :=
  ⟨by norm_num [num_masks] <;> decide, by decide, by decide, by decide⟩

/-! ## Lemmas about the Infill Requester stop token -/

/-- C6 counterexample: a non-empty chunk whose texts contain no placeholder
occurrences still instructs the model to stop on the placeholder marker of
index 0 — the end-of-sequence fallback fires only when the chunk itself is
empty, not when no placeholders exist in the chunk. -/
theorem stop_token_counterexample :
    pyCount markerLit "hello world".toList = 0 ∧
    stop_token ["hello world".toList] = StopTok.placeholder 0 ∧
    stop_token ["hello world".toList] ≠ StopTok.eos :=
  ⟨by decide, by decide, by decide⟩

/-- C6 (amended): for every chunk produced by the Infill Requester's
sub-batching, the stop token is the placeholder marker whose index is the
maximum per-text count of `"<extra_id_"` occurrences over the chunk — also
when that maximum is 0 because no placeholders occur; the end-of-sequence
fallback is selected exactly for an empty chunk, which sub-batching never
produces. -/
theorem stop_token_spec (texts : List (List Char)) (b : ℕ) (hb : 0 < b) :
    (∀ chunk ∈ chunked b texts, chunk ≠ [] ∧
      stop_token chunk
        = StopTok.placeholder
            ((chunk.map (fun t => pyCount markerLit t)).foldl max 0)) ∧
    stop_token [] = StopTok.eos := by
  refine ⟨fun chunk hc => ⟨chunkedF_ne_nil b hb texts.length texts chunk hc, ?_⟩, rfl⟩
  cases chunk with
  | nil => exact absurd hc (by simpa using chunkedF_ne_nil b hb texts.length texts [] · rfl)
  | cons h tl =>
    show stop_token (h :: tl) = _
    unfold stop_token
    simp only [List.map_cons, List.foldl_cons, Nat.zero_max]

/-- Witness for `stop_token_spec`: a one-text chunk with no placeholders. -/
theorem stop_token_spec_witness :
    stop_token ["ab".toList] = StopTok.placeholder 0 := by
  have h := ((stop_token_spec ["ab".toList] 1 (by norm_num)).1
    ["ab".toList] (by decide)).2
  exact h.trans (by decide)

/-! ## Lemmas about the normalizing Discrepancy Aggregator -/

/-- The sample standard deviation of a constant list is zero. -/
theorem npStd1_const_zero (x : ℝ) (n : ℕ) :
    npStd1 (List.replicate n x) = 0 := by
  unfold npStd1 npMean
  rcases Nat.eq_zero_or_pos n with h | h
  · subst h; simp
  · have hsum : (List.replicate n x).sum = n * x := by
      rw [List.sum_replicate, nsmul_eq_mul]
    have hmean : (List.replicate n x).sum / ((List.replicate n x).length : ℝ) = x := by
      rw [hsum, List.length_replicate]
      field_simp
    rw [hmean]
    simp

/-- C2: for `N` base log-probabilities and `N` non-empty perturbed lists, the
Aggregator returns `N` scores; score `i` is `base[i] - mean(transformed[i])`,
divided when normalizing by the sample standard deviation (`ddof = 1`) if it
is strictly positive and exactly `0` if it is zero; in particular base `-2`
with transformed `[-3, -3, -3]` gives unnormalized score `1`, and transformed
`[-5, -5, -5]` gives normalized score exactly `0`. -/
theorem normalized_aggregator_spec (base : List ℝ) (transformed : List (List ℝ))
    (norm : Bool) (hlen : base.length = transformed.length)
    (hne : ∀ l ∈ transformed, l ≠ []) :
    (compute_detectgpt_discrepancy base transformed norm).length = base.length ∧
    (∀ (i : ℕ) (h1 : i < base.length) (h2 : i < transformed.length)
      (h3 : i < (compute_detectgpt_discrepancy base transformed norm).length),
      (compute_detectgpt_discrepancy base transformed norm)[i] =
        (if norm then
          (if npStd1 transformed[i] > 0
           then (base[i] - npMean transformed[i]) / npStd1 transformed[i] else 0)
         else base[i] - npMean transformed[i])) ∧
    compute_detectgpt_discrepancy [-2] [[-3, -3, -3]] false = [1] ∧
    compute_detectgpt_discrepancy [-2] [[-5, -5, -5]] true = [0] := by
  refine ⟨?_, ?_, ?_, ?_⟩
  · simp [compute_detectgpt_discrepancy, hlen]
  · intro i h1 h2 h3
    simp [compute_detectgpt_discrepancy]
  · have hmean : npMean [(-3 : ℝ), -3, -3] = -3 := by
      unfold npMean; norm_num
    simp [compute_detectgpt_discrepancy, hmean]
    norm_num
  · have hstd : npStd1 [(-5 : ℝ), -5, -5] = 0 := by
      have : [(-5 : ℝ), -5, -5] = List.replicate 3 (-5 : ℝ) := by rfl
      rw [this]
      exact npStd1_const_zero (-5) 3
    simp [compute_detectgpt_discrepancy, hstd]

/-- Witness for `normalized_aggregator_spec`, at the claim's own inputs. -/
theorem normalized_aggregator_spec_witness :
    (compute_detectgpt_discrepancy [-2] [[-3, -3, -3]] false).length = 1 ∧
    compute_detectgpt_discrepancy [-2] [[-3, -3, -3]] false = [1] := by
  have h := normalized_aggregator_spec [-2] [[-3, -3, -3]] false (by simp) (by simp)
  exact ⟨by simpa using h.1, h.2.2.1⟩

/-! ## Lemmas about the Fill Extractor -/

/-- A list is a Boolean prefix of itself followed by anything. -/
theorem isPrefixOf_append_self (l t : List Char) : l.isPrefixOf (l ++ t) = true := by
  induction l with
  | nil => simp [List.isPrefixOf]
  | cons c l' ih => simp [List.isPrefixOf, ih]

/-- `parseNumCont` consumes a digit run and accepts at `'>'`. -/
theorem parseNumCont_digits (ds : List Char) (t : List Char)
    (hds : ∀ c ∈ ds, c.isDigit = true) :
    parseNumCont (ds ++ '>' :: t) = some t := by
  induction ds with
  | nil => simp [parseNumCont]
  | cons c ds' ih =>
    have hc : c.isDigit = true := hds c (List.mem_cons_self c ds')
    have : ∀ c' ∈ ds', c'.isDigit = true :=
      fun c' hc' => hds c' (List.mem_cons_of_mem c hc')
    simp [parseNumCont, hc, ih this]

/-- A full marker at the head of the string parses, leaving the remainder. -/
theorem markerAt_markerOfDigits (ds t : List Char) (hne : ds ≠ [])
    (hds : ∀ c ∈ ds, c.isDigit = true) :
    markerAt (markerOfDigits ds ++ t) = some t := by
  unfold markerAt markerOfDigits
  rw [List.append_assoc, List.append_assoc]
  rw [isPrefixOf_append_self]
  simp only [if_true]
  rw [List.drop_left]
  cases ds with
  | nil => exact absurd rfl hne
  | cons c ds' =>
    have hc : c.isDigit = true := hds c (List.mem_cons_self c ds')
    have hds' : ∀ c' ∈ ds', c'.isDigit = true :=
      fun c' hc' => hds c' (List.mem_cons_of_mem c hc')
    have hshape : (c :: ds') ++ (['>'] ++ t) = c :: (ds' ++ '>' :: t) := by simp
    rw [hshape]
    simp [parseNum, hc, parseNumCont_digits ds' t hds']

/-- No marker can start at a character other than `'<'`. -/
theorem markerAt_cons_ne (c : Char) (s : List Char) (hc : c ≠ '<') :
    markerAt (c :: s) = none := by
  unfold markerAt
  have : markerLit.isPrefixOf (c :: s) = false := by
    simp [markerLit, List.isPrefixOf]
    intro h
    exact absurd h.symm hc
  simp [this]

/-- A positive skip counter just drops characters. -/
theorem scanAux_skip_eq_drop : ∀ (l : List Char) (k : ℕ),
    scanAux k l = scanAux 0 (l.drop k) := by
  intro l
  induction l with
  | nil => intro k; cases k <;> rfl
  | cons c rest ih =>
    intro k
    cases k with
    | zero => rfl
    | succ k' => simpa [List.drop_succ_cons] using ih k'

/-- The scan skips over a `'<'`-free region. -/
theorem scanAux_append_lt_free (A g : List Char) (hA : '<' ∉ A) :
    scanAux 0 (A ++ g) = scanAux 0 g := by
  induction A with
  | nil => rfl
  | cons c A' ih =>
    have hc : c ≠ '<' := fun h => hA (h ▸ List.mem_cons_self c A')
    have hA' : '<' ∉ A' := fun h => hA (List.mem_cons_of_mem c h)
    rw [List.cons_append]
    show scanAux 0 (c :: (A' ++ g)) = scanAux 0 g
    rw [show scanAux 0 (c :: (A' ++ g))
        = scanAux 0 (A' ++ g) from by simp [scanAux, markerAt_cons_ne c _ hc]]
    exact ih hA'

/-- `findMarkerSplit` passes a `'<'`-free region into the segment. -/
theorem findMarkerSplit_append_lt_free (A g : List Char) (hA : '<' ∉ A) :
    findMarkerSplit (A ++ g)
      = (A ++ (findMarkerSplit g).1, (findMarkerSplit g).2) := by
  induction A with
  | nil => simp
  | cons c A' ih =>
    have hc : c ≠ '<' := fun h => hA (h ▸ List.mem_cons_self c A')
    have hA' : '<' ∉ A' := fun h => hA (List.mem_cons_of_mem c h)
    rw [List.cons_append]
    show findMarkerSplit (c :: (A' ++ g)) = _
    rw [show findMarkerSplit (c :: (A' ++ g))
        = ((c :: (A' ++ g).take 0 ++ (findMarkerSplit (A' ++ g)).1).take 0 ++
            c :: (findMarkerSplit (A' ++ g)).1, (findMarkerSplit (A' ++ g)).2) from by
          simp [findMarkerSplit, markerAt_cons_ne c _ hc]]
    simp [ih hA']

/-- A string that opens with a parsable marker splits trivially. -/
theorem findMarkerSplit_of_markerAt (s v : List Char) (h : markerAt s = some v) :
    findMarkerSplit s = ([], s) := by
  cases s with
  | nil => simp [markerAt, markerLit, List.isPrefixOf] at h
  | cons c r => unfold findMarkerSplit; rw [h]

/-- A rendered fill structure starts with a marker (or is empty), so the split
before it is trivial. -/
theorem findMarkerSplit_renderFills (pairs : List (List Char × List Char))
    (hpairs : ∀ p ∈ pairs, p.1 ≠ [] ∧ ∀ c ∈ p.1, c.isDigit = true) :
    findMarkerSplit (renderFills pairs) = ([], renderFills pairs) := by
  cases pairs with
  | nil => rfl
  | cons p rest =>
    obtain ⟨ds, f⟩ := p
    obtain ⟨hne, hds⟩ := hpairs (ds, f) (List.mem_cons_self _ _)
    refine findMarkerSplit_of_markerAt _ (f ++ renderFills rest) ?_
    show markerAt (markerOfDigits ds ++ f ++ renderFills rest) = _
    rw [List.append_assoc]
    exact markerAt_markerOfDigits ds (f ++ renderFills rest) hne hds

/-- One scan step at a parsable marker: capture the trimmed segment up to the
next marker unless it still holds a newline (then the regex match fails and
the scan moves on by one character). -/
theorem scanAux_zero_of_markerAt (s after : List Char) (h : markerAt s = some after) :
    scanAux 0 s =
      (if '\n' ∈ pyStrip (findMarkerSplit after).1 then scanAux 0 s.tail
       else pyStrip (findMarkerSplit after).1 ::
         scanAux (s.length - (findMarkerSplit after).2.length - 1) s.tail) := by
  cases s with
  | nil => simp [markerAt, markerLit, List.isPrefixOf] at h
  | cons c r =>
    conv_lhs => unfold scanAux
    rw [h]
    rfl

/-- Elements of a stripped string come from the string. -/
theorem mem_of_mem_pyStrip (c : Char) (s : List Char) (h : c ∈ pyStrip s) : c ∈ s := by
  unfold pyStrip at h
  rw [List.mem_reverse] at h
  have h2 := (List.dropWhile_sublist (l := (s.dropWhile Char.isWhitespace).reverse)
    Char.isWhitespace).subset h
  rw [List.mem_reverse] at h2
  exact (List.dropWhile_sublist (l := s) Char.isWhitespace).subset h2

/-- C7 counterexample: the raw string `"<extra_id_0> a\nb <extra_id_1> c"`
contains two placeholder markers, each followed by non-empty text; the claim
requires two fills (`"a\nb"` and `"c"`), but the extractor returns only one —
the regex `.` cannot cross the newline, so the match at the first marker
fails entirely. -/
theorem extractor_newline_counterexample :
    pyCount markerLit "<extra_id_0> a\nb <extra_id_1> c".toList = 2 ∧
    extract_fills "<extra_id_0> a\nb <extra_id_1> c".toList = ["c".toList] ∧
    (extract_fills "<extra_id_0> a\nb <extra_id_1> c".toList).length = 1 :=
  ⟨by decide, by decide, by decide⟩

/-! ## Lemmas about the Fill Applier -/

/-- Digit characters are digits. -/
theorem digitChar_isDigit (m : ℕ) (hm : m < 10) : (digitChar m).isDigit = true := by
  interval_cases m <;> decide

/-- Digit characters decode to their value. -/
theorem digitChar_toNat (m : ℕ) (hm : m < 10) : (digitChar m).toNat - 48 = m := by
  interval_cases m <;> decide

/-- Every character of a rendered number is a digit. -/
theorem natGo_digits : ∀ (f n : ℕ), ∀ c ∈ natGo f n, c.isDigit = true := by
  intro f
  induction f with
  | zero => intro n c hc; simp [natGo] at hc
  | succ f ih =>
    intro n c hc
    unfold natGo at hc
    by_cases h : n < 10
    · rw [if_pos h] at hc
      rcases List.mem_singleton.mp hc with rfl
      exact digitChar_isDigit n h
    · rw [if_neg h] at hc
      rcases List.mem_append.mp hc with hc | hc
      · exact ih (n / 10) c hc
      · rcases List.mem_singleton.mp hc with rfl
        exact digitChar_isDigit _ (Nat.mod_lt n (by norm_num))
  
/-- Every character of `natDigits n` is a digit. -/
theorem natDigits_digits (n : ℕ) : ∀ c ∈ natDigits n, c.isDigit = true :=
  natGo_digits (n + 1) n

/-- A rendered number is never empty. -/
theorem natDigits_ne_nil (n : ℕ) : natDigits n ≠ [] := by
  unfold natDigits natGo
  split <;> simp

/-- `digitsVal` on an appended digit. -/
theorem digitsVal_append (l : List Char) (c : Char) :
    digitsVal (l ++ [c]) = 10 * digitsVal l + (c.toNat - 48) := by
  unfold digitsVal
  rw [List.foldl_append]
  rfl

/-- `digitsVal` inverts `natGo` on sufficient fuel. -/
theorem digitsVal_natGo : ∀ (f n : ℕ), n < f → digitsVal (natGo f n) = n := by
  intro f
  induction f with
  | zero => intro n hn; exact absurd hn (Nat.not_lt_zero n)
  | succ f ih =>
    intro n hn
    unfold natGo
    by_cases h : n < 10
    · rw [if_pos h]
      show digitsVal ([] ++ [digitChar n]) = n
      rw [digitsVal_append]
      have : digitsVal [] = 0 := rfl
      rw [this, digitChar_toNat n h]
      omega
    · rw [if_neg h]
      rw [digitsVal_append]
      have hdiv : n / 10 < f := by
        have h1 : n / 10 < n := Nat.div_lt_self (by omega) (by norm_num)
        omega
      rw [ih (n / 10) hdiv, digitChar_toNat _ (Nat.mod_lt n (by norm_num))]
      omega

/-- Decimal rendering is injective. -/
theorem natDigits_inj (m n : ℕ) (h : natDigits m = natDigits n) : m = n := by
  have hm := digitsVal_natGo (m + 1) m (Nat.lt_succ_self m)
  have hn := digitsVal_natGo (n + 1) n (Nat.lt_succ_self n)
  rw [← hm, ← hn]
  unfold natDigits at h
  rw [h]

/-- Digit runs closed by `'>'` are prefix-free: equal strings force equal
runs. -/
theorem digits_gt_eq : ∀ (d1 d2 r1 r2 : List Char),
    (∀ c ∈ d1, c.isDigit = true) → (∀ c ∈ d2, c.isDigit = true) →
    d1 ++ '>' :: r1 = d2 ++ '>' :: r2 → d1 = d2 ∧ r1 = r2 := by
  intro d1
  induction d1 with
  | nil =>
    intro d2 r1 r2 _ hd2 heq
    cases d2 with
    | nil => simpa using heq
    | cons c d2' =>
      have hc : c.isDigit = true := hd2 c (List.mem_cons_self c d2')
      have : '>' = c := by simpa using congrArg (fun l => l.headD ' ') heq
      rw [← this] at hc
      exact absurd hc (by decide)
  | cons c d1' ih =>
    intro d2 r1 r2 hd1 hd2 heq
    cases d2 with
    | nil =>
      have hc : c.isDigit = true := hd1 c (List.mem_cons_self c d1')
      have : c = '>' := by simpa using congrArg (fun l => l.headD ' ') heq
      rw [this] at hc
      exact absurd hc (by decide)
    | cons c2 d2' =>
      simp only [List.cons_append, List.cons.injEq] at heq
      obtain ⟨hc, htl⟩ := heq
      obtain ⟨hd, hr⟩ := ih d2' r1 r2
        (fun x hx => hd1 x (List.mem_cons_of_mem c hx))
        (fun x hx => hd2 x (List.mem_cons_of_mem c2 hx)) htl
      exact ⟨by rw [hc, hd], hr⟩

/-- The `'<'` of a marker occurs only at its head. -/
theorem lt_not_mem_markerTail (k : ℕ) :
    '<' ∉ markerLit.tail ++ natDigits k ++ ['>'] := by
  intro h
  rcases List.mem_append.mp h with h | h
  · rcases List.mem_append.mp h with h | h
    · simp [markerLit] at h
    · have := natDigits_digits k '<' h
      exact absurd this (by decide)
  · simp at h

/-- The cons form of a marker. -/
theorem markerChars_cons (k : ℕ) :
    markerChars k = '<' :: (markerLit.tail ++ natDigits k ++ ['>']) := by
  simp [markerChars, markerLit]

/-- One-step equation for `replaceFirst`. -/
theorem replaceFirst_cons (pat repl : List Char) (c : Char) (rest : List Char) :
    replaceFirst pat repl (c :: rest)
      = if pat.isPrefixOf (c :: rest) then repl ++ (c :: rest).drop pat.length
        else c :: replaceFirst pat repl rest := rfl

/-- A prefix check fails on mismatching heads. -/
theorem isPrefixOf_cons_ne (a : Char) (as : List Char) (c : Char) (cs : List Char)
    (h : a ≠ c) : (a :: as).isPrefixOf (c :: cs) = false := by
  simp [List.isPrefixOf_cons₂]
  intro hac
  exact absurd hac h

/-- `replaceFirst` with a marker pattern walks through a `'<'`-free region. -/
theorem replaceFirst_append_lt_free (k : ℕ) (fill A X : List Char)
    (hA : '<' ∉ A) :
    replaceFirst (markerChars k) fill (A ++ X)
      = A ++ replaceFirst (markerChars k) fill X := by
  induction A with
  | nil => rfl
  | cons c A' ih =>
    have hc : c ≠ '<' := fun h => hA (h ▸ List.mem_cons_self c A')
    have hA' : '<' ∉ A' := fun h => hA (List.mem_cons_of_mem c h)
    have hfalse : (markerChars k).isPrefixOf (c :: (A' ++ X)) = false := by
      rw [markerChars_cons]
      exact isPrefixOf_cons_ne _ _ _ _ (Ne.symm hc)
    rw [List.cons_append, replaceFirst_cons, hfalse]
    simp only [Bool.false_eq_true, if_false]
    rw [ih hA']
    rfl

/-- `replaceFirst` fires on the pattern itself at the head. -/
theorem replaceFirst_self_append (pat fill X : List Char) (hpat : pat ≠ []) :
    replaceFirst pat fill (pat ++ X) = fill ++ X := by
  cases pat with
  | nil => exact absurd rfl hpat
  | cons a as =>
    rw [List.cons_append, replaceFirst_cons]
    have htrue : (a :: as).isPrefixOf (a :: (as ++ X)) = true := by
      have := isPrefixOf_append_self (a :: as) X
      rwa [List.cons_append] at this
    rw [htrue]
    simp only [if_true]
    have : (a :: (as ++ X)).drop (a :: as).length = X := by
      have := List.drop_left (a :: as) X
      rwa [List.cons_append] at this
    rw [this]

/-- A marker pattern of a different index walks through a marker. -/
theorem replaceFirst_marker_ne (j k : ℕ) (fill X : List Char) (hjk : j ≠ k) :
    replaceFirst (markerChars k) fill (markerChars j ++ X)
      = markerChars j ++ replaceFirst (markerChars k) fill X := by
  have hfalse : (markerChars k).isPrefixOf (markerChars j ++ X) = false := by
    by_contra hcon
    have htrue : (markerChars k).isPrefixOf (markerChars j ++ X) = true := by
      cases hb : (markerChars k).isPrefixOf (markerChars j ++ X)
      · exact absurd hb hcon
      · rfl
    have hpref := List.isPrefixOf_iff_prefix.mp htrue
    obtain ⟨t, ht⟩ := hpref
    have hstruct : markerLit ++ (natDigits k ++ '>' :: t)
        = markerLit ++ (natDigits j ++ '>' :: X) := by
      calc markerLit ++ (natDigits k ++ '>' :: t)
          = markerChars k ++ t := by simp [markerChars]
        _ = markerChars j ++ X := ht
        _ = markerLit ++ (natDigits j ++ '>' :: X) := by simp [markerChars]
    have hcancel := List.append_cancel_left hstruct
    have := digits_gt_eq (natDigits k) (natDigits j) t X
      (natDigits_digits k) (natDigits_digits j) hcancel
    exact hjk (natDigits_inj k j this.1).symm
  rw [markerChars_cons j, List.cons_append, replaceFirst_cons]
  rw [markerChars_cons j, List.cons_append] at hfalse
  rw [hfalse]
  simp only [Bool.false_eq_true, if_false]
  rw [replaceFirst_append_lt_free k fill _ X (lt_not_mem_markerTail j)]
  simp

/-- `assemble` is compositional over pair-list concatenation. -/
theorem assemble_append (P1 P2 : List (List Char × ℕ)) (last : List Char) :
    assemble (P1 ++ P2) last = assemble P1 (assemble P2 last) := by
  induction P1 with
  | nil => rfl
  | cons p P1' ih =>
    obtain ⟨s, j⟩ := p
    show s ++ markerChars j ++ assemble (P1' ++ P2) last = _
    rw [ih]
    rfl

/-- `assembleWith` is compositional over pair-list concatenation. -/
theorem assembleWith_append (σ : ℕ → List Char) (P1 P2 : List (List Char × ℕ))
    (last : List Char) :
    assembleWith σ (P1 ++ P2) last = assembleWith σ P1 (assembleWith σ P2 last) := by
  induction P1 with
  | nil => rfl
  | cons p P1' ih =>
    obtain ⟨s, j⟩ := p
    show s ++ σ j ++ assembleWith σ (P1' ++ P2) last = _
    rw [ih]
    rfl

/-- Substitutions agreeing on the markers present assemble identically. -/
theorem assembleWith_congr (σ σ' : ℕ → List Char) (pairs : List (List Char × ℕ))
    (last : List Char) (h : ∀ j ∈ pairs.map Prod.snd, σ j = σ' j) :
    assembleWith σ pairs last = assembleWith σ' pairs last := by
  induction pairs with
  | nil => rfl
  | cons p ps ih =>
    obtain ⟨s, j⟩ := p
    have hj : σ j = σ' j := h j (by simp)
    show s ++ σ j ++ assembleWith σ ps last = s ++ σ' j ++ assembleWith σ' ps last
    rw [hj, ih (fun i hi => h i (by simp [hi]))]

/-- A substitution fixing every present marker assembles to the original. -/
theorem assembleWith_markers (σ : ℕ → List Char) (pairs : List (List Char × ℕ))
    (last : List Char) (h : ∀ j ∈ pairs.map Prod.snd, σ j = markerChars j) :
    assembleWith σ pairs last = assemble pairs last := by
  induction pairs with
  | nil => rfl
  | cons p ps ih =>
    obtain ⟨s, j⟩ := p
    have hj : σ j = markerChars j := h j (by simp)
    show s ++ σ j ++ assembleWith σ ps last = s ++ markerChars j ++ assemble ps last
    rw [hj, ih (fun i hi => h i (by simp [hi]))]

/-- A marker pattern absent from an assembly walks through to its tail. -/
theorem replaceFirst_assemble_walk (k : ℕ) (fill : List Char)
    (pairs : List (List Char × ℕ)) (X : List Char)
    (hk : k ∉ pairs.map Prod.snd) (hp : ∀ p ∈ pairs, '<' ∉ p.1) :
    replaceFirst (markerChars k) fill (assemble pairs X)
      = assemble pairs (replaceFirst (markerChars k) fill X) := by
  induction pairs with
  | nil => rfl
  | cons p ps ih =>
    obtain ⟨s, j⟩ := p
    have hjk : j ≠ k := fun h => hk (by simp [h])
    have hks : k ∉ ps.map Prod.snd := fun h => hk (by simp [h])
    have hsf : '<' ∉ s := hp (s, j) (by simp)
    have hps : ∀ q ∈ ps, '<' ∉ q.1 := fun q hq => hp q (by simp [hq])
    show replaceFirst (markerChars k) fill (s ++ markerChars j ++ assemble ps X) = _
    rw [List.append_assoc, replaceFirst_append_lt_free k fill s _ hsf,
      replaceFirst_marker_ne j k fill _ hjk, ih hks hps]
    show _ = s ++ markerChars j ++ assemble ps (replaceFirst (markerChars k) fill X)
    rw [List.append_assoc]

/-- A marker pattern absent from a `'<'`-free string leaves it unchanged. -/
theorem replaceFirst_lt_free_id (k : ℕ) (fill A : List Char) (hA : '<' ∉ A) :
    replaceFirst (markerChars k) fill A = A := by
  have h := replaceFirst_append_lt_free k fill A [] hA
  simpa [replaceFirst] using h

/-- First-occurrence decomposition of a marker index in a pair list. -/
theorem mem_split_first {k : ℕ} {pairs : List (List Char × ℕ)}
    (h : k ∈ pairs.map Prod.snd) :
    ∃ P1 s P2, pairs = P1 ++ (s, k) :: P2 ∧ k ∉ P1.map Prod.snd := by
  induction pairs with
  | nil => simp at h
  | cons p ps ih =>
    obtain ⟨s0, j0⟩ := p
    by_cases hj : j0 = k
    · exact ⟨[], s0, ps, by simp [hj], by simp⟩
    · have hmem : k ∈ ps.map Prod.snd := by
        rcases List.mem_map.mp h with ⟨q, hq, hqe⟩
        rcases List.mem_cons.mp hq with rfl | hq'
        · exact absurd hqe hj
        · exact List.mem_map.mpr ⟨q, hq', hqe⟩
      obtain ⟨P1, s, P2, heq, hnot⟩ := ih hmem
      exact ⟨(s0, j0) :: P1, s, P2, by simp [heq], by
        simp only [List.map_cons, List.mem_cons]
        rintro (h' | h')
        · exact hj h'.symm
        · exact hnot h'⟩

/-- Shifting the fill queue against the index base. -/
theorem substFrom_shift (k j : ℕ) (f : List Char) (fs : List (List Char))
    (hjk : j ≠ k) : substFrom k (f :: fs) j = substFrom (k + 1) fs j := by
  unfold substFrom
  by_cases h : k ≤ j
  · have h1 : k + 1 ≤ j := by omega
    rw [if_pos h, if_pos h1]
    have : j - k = (j - (k + 1)) + 1 := by omega
    rw [this]
    rfl
  · have h1 : ¬ (k + 1 ≤ j) := by omega
    rw [if_neg h, if_neg h1]

/-- The head fill lands on its own marker index. -/
theorem substFrom_self (k : ℕ) (f : List Char) (fs : List (List Char)) :
    substFrom k (f :: fs) k = f := by
  simp [substFrom]

/-- The Applier's fold realises `substFrom`: processing fills `k, k+1, ...`
on an assembled masked text replaces marker `j` with the `(j-k)`-th fill when
it exists, leaves other markers literal, replaces first occurrences only
(unique by the no-duplicate premise), and ignores fills whose marker is
absent. -/
theorem replace_masks_from_spec :
    ∀ (fs : List (List Char)) (k : ℕ) (pairs : List (List Char × ℕ))
      (last : List Char),
    (∀ p ∈ pairs, '<' ∉ p.1) → '<' ∉ last → (∀ f ∈ fs, '<' ∉ f) →
    (pairs.map Prod.snd).Nodup →
    replace_masks_from k (assemble pairs last) fs
      = assembleWith (substFrom k fs) pairs last := by
  intro fs
  induction fs with
  | nil =>
    intro k pairs last hp hl hf hnd
    show assemble pairs last = _
    symm
    apply assembleWith_markers
    intro j hj
    simp [substFrom]
  | cons f fs' ih =>
    intro k pairs last hp hl hf hnd
    have hf' : ∀ g ∈ fs', '<' ∉ g := fun g hg => hf g (List.mem_cons_of_mem f hg)
    have hffree : '<' ∉ f := hf f (List.mem_cons_self f fs')
    show replace_masks_from (k + 1)
      (replaceFirst (markerChars k) f (assemble pairs last)) fs' = _
    by_cases hk : k ∈ pairs.map Prod.snd
    · obtain ⟨P1, s, P2, rfl, hkP1⟩ := mem_split_first hk
      have hp1 : ∀ p ∈ P1, '<' ∉ p.1 := fun p hp' => hp p (by simp [hp'])
      have hsfree : '<' ∉ s := hp (s, k) (by simp)
      have hp2 : ∀ p ∈ P2, '<' ∉ p.1 := fun p hp' => hp p (by simp [hp'])
      have hmarker_ne : markerChars k ≠ [] := by rw [markerChars_cons]; simp
      have hndtail : (k :: P2.map Prod.snd).Nodup := by
        have := hnd
        rw [List.map_append, List.map_cons] at this
        exact this.of_append_right
      have hkP2 : k ∉ P2.map Prod.snd := (List.nodup_cons.mp hndtail).1
      have hfound : replaceFirst (markerChars k) f (assemble (P1 ++ (s, k) :: P2) last)
          = assemble P1 (s ++ (f ++ assemble P2 last)) := by
        rw [assemble_append,
          replaceFirst_assemble_walk k f P1 _ hkP1 hp1]
        refine congrArg (assemble P1 ·) ?_
        show replaceFirst (markerChars k) f (s ++ markerChars k ++ assemble P2 last) = _
        rw [List.append_assoc, replaceFirst_append_lt_free k f s _ hsfree,
          replaceFirst_self_append _ _ _ hmarker_ne]
      rw [hfound]
      cases P2 with
      | nil =>
        have hlast' : '<' ∉ s ++ (f ++ last) := by
          simp only [List.mem_append]
          rintro (h | h | h)
          exacts [hsfree h, hffree h, hl h]
        have hnd1 : (P1.map Prod.snd).Nodup := by
          have := hnd
          rw [List.map_append] at this
          exact this.of_append_left
        have hstep := ih (k + 1) P1 (s ++ (f ++ last)) hp1 hlast' hf' hnd1
        show replace_masks_from (k + 1) (assemble P1 (s ++ (f ++ last))) fs' = _
        rw [hstep, assembleWith_append]
        have hsingle : assembleWith (substFrom k (f :: fs')) [(s, k)] last
            = s ++ (f ++ last) := by
          show s ++ substFrom k (f :: fs') k ++ last = _
          rw [substFrom_self, List.append_assoc]
        rw [hsingle]
        apply assembleWith_congr
        intro j hj
        have hjk : j ≠ k := fun h => hkP1 (h ▸ hj)
        exact (substFrom_shift k j f fs' hjk).symm
      | cons q P2' =>
        obtain ⟨s2, j2⟩ := q
        have hs2 : '<' ∉ s2 := hp2 (s2, j2) (by simp)
        have hp2' : ∀ p ∈ P2', '<' ∉ p.1 := fun p hp' => hp2 p (by simp [hp'])
        have hj2k : j2 ≠ k := by
          have := (List.nodup_cons.mp hndtail).1
          simp only [List.map_cons, List.mem_cons] at this
          exact fun h => this (Or.inl h.symm)
        have hkP2' : k ∉ P2'.map Prod.snd := by
          have := (List.nodup_cons.mp hndtail).1
          simp only [List.map_cons, List.mem_cons] at this
          exact fun h => this (Or.inr h)
        have hmerge : s ++ (f ++ assemble ((s2, j2) :: P2') last)
            = assemble ((s ++ f ++ s2, j2) :: P2') last := by
          show s ++ (f ++ (s2 ++ markerChars j2 ++ assemble P2' last))
              = (s ++ f ++ s2) ++ markerChars j2 ++ assemble P2' last
          simp [List.append_assoc]
        have hclean' : ∀ p ∈ (s ++ f ++ s2, j2) :: P2', '<' ∉ p.1 := by
          intro p hp'
          rcases List.mem_cons.mp hp' with rfl | hp'
          · simp only [List.mem_append]
            rintro ((h | h) | h)
            exacts [hsfree h, hffree h, hs2 h]
          · exact hp2' p hp'
        have hcleanall : ∀ p ∈ P1 ++ (s ++ f ++ s2, j2) :: P2', '<' ∉ p.1 := by
          intro p hp'
          rcases List.mem_append.mp hp' with hp' | hp'
          exacts [hp1 p hp', hclean' p hp']
        have hnd' : ((P1 ++ (s ++ f ++ s2, j2) :: P2').map Prod.snd).Nodup := by
          rw [List.map_append, List.map_cons]
          have hsub : List.Sublist (P1.map Prod.snd ++ j2 :: P2'.map Prod.snd)
              (P1.map Prod.snd ++ k :: j2 :: P2'.map Prod.snd) :=
            List.Sublist.append_left (List.Sublist.cons k (List.Sublist.refl _)) _
          have hnd0 : (P1.map Prod.snd ++ k :: j2 :: P2'.map Prod.snd).Nodup := by
            have := hnd
            rwa [List.map_append, List.map_cons, List.map_cons] at this
          exact hnd0.sublist hsub
        rw [hmerge, ← assemble_append]
        have hstep := ih (k + 1) (P1 ++ (s ++ f ++ s2, j2) :: P2') last
          hcleanall hl hf' hnd'
        rw [hstep]
        rw [assembleWith_append, assembleWith_append]
        have hcongr1 : assembleWith (substFrom (k + 1) fs') P1
            = assembleWith (substFrom k (f :: fs')) P1 := by
          funext last'
          apply assembleWith_congr
          intro j hj
          exact (substFrom_shift k j f fs' (fun h => hkP1 (h ▸ hj))).symm
        rw [hcongr1]
        refine congrArg (assembleWith (substFrom k (f :: fs')) P1 ·) ?_
        show (s ++ f ++ s2) ++ substFrom (k + 1) fs' j2 ++
            assembleWith (substFrom (k + 1) fs') P2' last = _
        have hj2 : substFrom (k + 1) fs' j2 = substFrom k (f :: fs') j2 :=
          (substFrom_shift k j2 f fs' hj2k).symm
        have hP2' : assembleWith (substFrom (k + 1) fs') P2' last
            = assembleWith (substFrom k (f :: fs')) P2' last := by
          apply assembleWith_congr
          intro j hj
          exact (substFrom_shift k j f fs' (fun h => hkP2' (h ▸ hj))).symm
        rw [hj2, hP2']
        show _ = s ++ substFrom k (f :: fs') k ++
            ((s2 ++ substFrom k (f :: fs') j2 ++
              assembleWith (substFrom k (f :: fs')) P2' last))
        rw [substFrom_self]
        simp [List.append_assoc]
    · have hnom : replaceFirst (markerChars k) f (assemble pairs last)
          = assemble pairs last := by
        rw [replaceFirst_assemble_walk k f pairs last hk hp,
          replaceFirst_lt_free_id k f last hl]
      rw [hnom, ih (k + 1) pairs last hp hl hf' hnd]
      apply assembleWith_congr
      intro j hj
      exact (substFrom_shift k j f fs' (fun h => hk (h ▸ hj))).symm

/-- C8: for every (Masked Text, Fill Set) pair, an empty Fill Set returns the
masked text unchanged with placeholders literal; otherwise fill `i`, in
order, replaces the (unique) occurrence of placeholder marker `i`: marker `j`
becomes `fills[j]` when that fill exists, fills whose marker is absent are
ignored, and markers beyond the fills provided remain literally in the
output.  The masked text is taken in assembled form: `'<'`-free segments
around pairwise-distinct markers. -/
theorem applier_spec :
    (∀ t : List Char, apply_extracted_fills t [] = t) ∧
    (∀ (pairs : List (List Char × ℕ)) (last : List Char)
      (fills : List (List Char)),
      (∀ p ∈ pairs, '<' ∉ p.1) → '<' ∉ last → (∀ f ∈ fills, '<' ∉ f) →
      (pairs.map Prod.snd).Nodup →
      apply_extracted_fills (assemble pairs last) fills
        = assembleWith (fun j => fills.getD j (markerChars j)) pairs last) := by
  constructor
  · intro t; rfl
  · intro pairs last fills hp hl hf hnd
    cases fills with
    | nil =>
      show assemble pairs last = _
      symm
      apply assembleWith_markers
      intro j hj
      simp
    | cons f fs =>
      show replace_masks (assemble pairs last) (f :: fs) = _
      unfold replace_masks
      rw [replace_masks_from_spec (f :: fs) 0 pairs last hp hl hf hnd]
      apply assembleWith_congr
      intro j hj
      simp [substFrom]

/-- Witness for `applier_spec`: one fill, two markers out of positional
order — marker 0 is replaced, marker 1 (no fill provided) stays literal. -/
theorem applier_spec_witness :
    apply_extracted_fills "w1 <extra_id_1> w2 <extra_id_0> w3".toList
        ["X".toList]
      = "w1 <extra_id_1> w2 X w3".toList := by
  have heq : assemble [("w1 ".toList, 1), (" w2 ".toList, 0)] " w3".toList
      = "w1 <extra_id_1> w2 <extra_id_0> w3".toList := by decide
  have h := applier_spec.2 [("w1 ".toList, 1), (" w2 ".toList, 0)] " w3".toList
    ["X".toList] (by decide) (by decide) (by decide) (by decide)
  rw [← heq]
  exact h.trans (by decide)

/-- No marker parses from the empty string. -/
theorem markerAt_nil : markerAt [] = none := by
  simp [markerAt, markerLit, List.isPrefixOf]

/-- `noMarker` extends beyond the string's length for free. -/
theorem noMarker_all (s : List Char) (h : noMarker s) (j : ℕ) :
    markerAt (s.drop j) = none := by
  by_cases hj : j < s.length
  · exact h j hj
  · rw [List.drop_eq_nil_of_le (by omega)]
    exact markerAt_nil

/-- `noMarker` descends to the tail. -/
theorem noMarker_cons (c : Char) (A : List Char) (h : noMarker (c :: A)) :
    noMarker A := by
  intro i hi
  have := h (i + 1) (by simpa using Nat.succ_lt_succ hi)
  simpa using this

/-- A digit-run continuation parse cannot begin inside an adjacent marker:
appending a `'<'`-headed (or empty) remainder commutes with the parse. -/
theorem parseNumCont_append_lt (a g : List Char)
    (hg : g = [] ∨ ∃ t, g = '<' :: t) :
    parseNumCont (a ++ g) = Option.map (· ++ g) (parseNumCont a) := by
  induction a with
  | nil =>
    rcases hg with rfl | ⟨t, rfl⟩
    · simp [parseNumCont]
    · simp [parseNumCont]
  | cons c a' ih =>
    by_cases hd : c.isDigit
    · simp [parseNumCont, hd, ih]
    · by_cases hgt : c = '>'
      · simp [parseNumCont, hd, hgt]
      · simp [parseNumCont, hd, hgt]

/-- Same for the full digit-run parse. -/
theorem parseNum_append_lt (a g : List Char)
    (hg : g = [] ∨ ∃ t, g = '<' :: t) :
    parseNum (a ++ g) = Option.map (· ++ g) (parseNum a) := by
  cases a with
  | nil =>
    rcases hg with rfl | ⟨t, rfl⟩
    · simp [parseNum]
    · simp [parseNum]
  | cons c a' =>
    by_cases hd : c.isDigit
    · simp [parseNum, hd, parseNumCont_append_lt a' g hg]
    · simp [parseNum, hd]

/-- A Boolean prefix of a prefix extends over an appended remainder. -/
theorem isPrefixOf_append_right (l s g : List Char)
    (h : l.isPrefixOf s = true) : l.isPrefixOf (s ++ g) = true := by
  induction l generalizing s with
  | nil => simp [List.isPrefixOf]
  | cons c l' ih =>
    cases s with
    | nil => simp [List.isPrefixOf] at h
    | cons b bs =>
      rw [List.isPrefixOf_cons₂] at h
      rcases Bool.and_eq_true_iff.mp h with ⟨hcb, htl⟩
      rw [List.cons_append, List.isPrefixOf_cons₂, hcb, ih bs htl]
      rfl

/-- A prefix check against `s ++ g` whose pattern has `'<'` only at its head
cannot exploit `g` when `g` is empty or `'<'`-headed: it reduces to the check
against `s` alone. -/
theorem isPrefixOf_append_boundary (l : List Char) :
    ∀ (s g : List Char), (g = [] ∨ ∃ t, g = '<' :: t) → s ≠ [] →
    '<' ∉ l.tail → l.isPrefixOf (s ++ g) = l.isPrefixOf s := by
  induction l with
  | nil => intro s g _ _ _; simp [List.isPrefixOf]
  | cons c l' ih =>
    intro s g hg hs htail
    cases s with
    | nil => exact absurd rfl hs
    | cons b s' =>
      rw [List.cons_append, List.isPrefixOf_cons₂, List.isPrefixOf_cons₂]
      by_cases hcb : c = b
      · subst hcb
        simp only [beq_self_eq_true, Bool.true_and]
        cases l' with
        | nil => simp [List.isPrefixOf]
        | cons d l'' =>
          cases s' with
          | nil =>
            have hdlt : d ≠ '<' := by
              intro hd
              exact htail (by simp [hd])
            rcases hg with rfl | ⟨t, rfl⟩
            · simp [List.isPrefixOf]
            · rw [List.nil_append]
              have h1 : (d :: l'').isPrefixOf ('<' :: t) = false :=
                isPrefixOf_cons_ne d l'' '<' t hdlt
              have h2 : (d :: l'').isPrefixOf ([] : List Char) = false := by
                simp [List.isPrefixOf]
              rw [h1, h2]
          | cons e s'' =>
            have htail' : '<' ∉ (d :: l'').tail := by
              intro hmem
              rw [List.tail_cons] at hmem
              refine htail ?_
              rw [List.tail_cons]
              exact List.mem_cons_of_mem d hmem
            exact ih (e :: s'') g hg (by simp) htail'
      · have : (c == b) = false := by
          simp only [beq_eq_false_iff_ne, ne_eq]
          exact hcb
        rw [this]
        rfl

/-- A marker parse on `s ++ g` with `g` empty or `'<'`-headed is the parse on
`s` with `g` appended to the remainder: markers cannot span out of `s`. -/
theorem markerAt_append_lt (s g : List Char) (hs : s ≠ [])
    (hg : g = [] ∨ ∃ t, g = '<' :: t) :
    markerAt (s ++ g) = Option.map (· ++ g) (markerAt s) := by
  have hpre : markerLit.isPrefixOf (s ++ g) = markerLit.isPrefixOf s :=
    isPrefixOf_append_boundary markerLit s g hg hs (by decide)
  cases hb : markerLit.isPrefixOf s with
  | false =>
    unfold markerAt
    rw [hpre, hb]
    simp
  | true =>
    obtain ⟨s', rfl⟩ := List.isPrefixOf_iff_prefix.mp hb
    unfold markerAt
    rw [hpre, hb]
    simp only [if_true]
    rw [List.append_assoc, List.drop_left, List.drop_left]
    exact parseNum_append_lt s' g hg

/-- The cons form of a marker with explicit digits. -/
theorem markerOfDigits_cons (ds : List Char) :
    markerOfDigits ds = '<' :: (markerLit.tail ++ ds ++ ['>']) := by
  simp [markerOfDigits, markerLit]

/-- A rendered fill structure is empty or `'<'`-headed. -/
theorem renderFills_shape (pairs : List (List Char × List Char)) :
    renderFills pairs = [] ∨ ∃ t, renderFills pairs = '<' :: t := by
  cases pairs with
  | nil => exact Or.inl rfl
  | cons p rest =>
    obtain ⟨ds, f⟩ := p
    refine Or.inr ⟨markerLit.tail ++ ds ++ ['>'] ++ (f ++ renderFills rest), ?_⟩
    show markerOfDigits ds ++ f ++ renderFills rest = _
    rw [markerOfDigits_cons, List.append_assoc]
    rfl

/-- The scan skips over a marker-free region ahead of a rendered structure
(or of the end of the string): markers cannot span out of it. -/
theorem scanAux_append_noMarker (A g : List Char) (hA : noMarker A)
    (hg : g = [] ∨ ∃ t, g = '<' :: t) :
    scanAux 0 (A ++ g) = scanAux 0 g := by
  induction A with
  | nil => rfl
  | cons c A' ih =>
    have h0 : markerAt (c :: (A' ++ g)) = none := by
      have hmap := markerAt_append_lt (c :: A') g (by simp) hg
      rw [List.cons_append] at hmap
      have h00 := hA 0 (by simp)
      rw [List.drop_zero] at h00
      rw [hmap, h00]
      rfl
    rw [List.cons_append]
    show scanAux 0 (c :: (A' ++ g)) = scanAux 0 g
    rw [show scanAux 0 (c :: (A' ++ g)) = scanAux 0 (A' ++ g) from by
      simp [scanAux, h0]]
    exact ih (noMarker_cons c A' hA)

/-- `findMarkerSplit` passes a marker-free region into the segment when the
remainder is empty or `'<'`-headed. -/
theorem findMarkerSplit_append_noMarker (A g : List Char) (hA : noMarker A)
    (hg : g = [] ∨ ∃ t, g = '<' :: t) :
    findMarkerSplit (A ++ g)
      = (A ++ (findMarkerSplit g).1, (findMarkerSplit g).2) := by
  induction A with
  | nil => simp
  | cons c A' ih =>
    have h0 : markerAt (c :: (A' ++ g)) = none := by
      have hmap := markerAt_append_lt (c :: A') g (by simp) hg
      rw [List.cons_append] at hmap
      have h00 := hA 0 (by simp)
      rw [List.drop_zero] at h00
      rw [hmap, h00]
      rfl
    rw [List.cons_append]
    show findMarkerSplit (c :: (A' ++ g)) = _
    rw [show findMarkerSplit (c :: (A' ++ g))
        = (c :: (findMarkerSplit (A' ++ g)).1, (findMarkerSplit (A' ++ g)).2) from by
      simp [findMarkerSplit, h0]]
    rw [ih (noMarker_cons c A' hA)]
    simp

/-- Scanning a rendered fill structure returns exactly the trimmed fills, in
order, provided each fill contains no placeholder marker and its trimmed
text contains no newline. -/
theorem scanAux_renderFills (pairs : List (List Char × List Char))
    (hpairs : ∀ p ∈ pairs, p.1 ≠ [] ∧ (∀ c ∈ p.1, c.isDigit = true) ∧
      noMarker p.2 ∧ '\n' ∉ pyStrip p.2) :
    scanAux 0 (renderFills pairs) = pairs.map (fun p => pyStrip p.2) := by
  induction pairs with
  | nil => rfl
  | cons p rest ih =>
    obtain ⟨ds, f⟩ := p
    obtain ⟨hne, hds, hfNM, hfNL⟩ := hpairs (ds, f) (List.mem_cons_self _ _)
    have hrest : ∀ q ∈ rest, q.1 ≠ [] ∧ (∀ c ∈ q.1, c.isDigit = true) ∧
        noMarker q.2 ∧ '\n' ∉ pyStrip q.2 :=
      fun q hq => hpairs q (List.mem_cons_of_mem _ hq)
    have hR : findMarkerSplit (renderFills rest) = ([], renderFills rest) :=
      findMarkerSplit_renderFills rest (fun q hq => ⟨(hrest q hq).1, (hrest q hq).2.1⟩)
    have hs : renderFills ((ds, f) :: rest)
        = markerOfDigits ds ++ (f ++ renderFills rest) := by
      show markerOfDigits ds ++ f ++ renderFills rest = _
      rw [List.append_assoc]
    have hmark : markerAt (renderFills ((ds, f) :: rest))
        = some (f ++ renderFills rest) := by
      rw [hs]; exact markerAt_markerOfDigits _ _ hne hds
    have hsplit : findMarkerSplit (f ++ renderFills rest) = (f, renderFills rest) := by
      rw [findMarkerSplit_append_noMarker f _ hfNM (renderFills_shape rest), hR]
      simp
    rw [scanAux_zero_of_markerAt _ _ hmark, hsplit]
    simp only [List.map_cons]
    rw [if_neg hfNL]
    refine congrArg (pyStrip f :: ·) ?_
    rw [scanAux_skip_eq_drop]
    have hdrop1 : (renderFills ((ds, f) :: rest)).tail
        = (renderFills ((ds, f) :: rest)).drop 1 := by
      rw [List.drop_one]
    have hMlen : (markerOfDigits ds).length = 11 + ds.length := by
      simp [markerOfDigits, markerLit]
      omega
    have hlen : (renderFills ((ds, f) :: rest)).length
        = (markerOfDigits ds).length + f.length + (renderFills rest).length := by
      rw [hs]; simp [List.length_append]
      omega
    have harith : 1 + ((renderFills ((ds, f) :: rest)).length
          - (renderFills rest).length - 1)
        = (markerOfDigits ds).length + f.length := by
      omega
    rw [hdrop1, List.drop_drop, harith]
    have hfinal : (renderFills ((ds, f) :: rest)).drop
        ((markerOfDigits ds).length + f.length) = renderFills rest := by
      rw [hs, ← List.append_assoc, ← List.length_append,
        List.drop_left]
    rw [hfinal]
    exact ih hrest

/-- Inversion of the digit-run continuation parse. -/
theorem parseNumCont_inv : ∀ (a r : List Char), parseNumCont a = some r →
    ∃ d, (∀ c ∈ d, c.isDigit = true) ∧ a = d ++ '>' :: r := by
  intro a
  induction a with
  | nil => intro r h; simp [parseNumCont] at h
  | cons c a' ih =>
    intro r h
    by_cases hd : c.isDigit
    · rw [show parseNumCont (c :: a') = parseNumCont a' from by
        simp [parseNumCont, hd]] at h
      obtain ⟨d', hd', ha'⟩ := ih r h
      exact ⟨c :: d', by
        intro x hx
        rcases List.mem_cons.mp hx with rfl | hx
        exacts [hd, hd' x hx], by rw [List.cons_append, ha']⟩
    · by_cases hgt : c = '>'
      · subst hgt
        have : a' = r := by simpa [parseNumCont, hd] using h
        exact ⟨[], by simp, by rw [this]; rfl⟩
      · simp [parseNumCont, hd, hgt] at h

/-- Inversion of the digit-run parse. -/
theorem parseNum_inv (a r : List Char) (h : parseNum a = some r) :
    ∃ d, d ≠ [] ∧ (∀ c ∈ d, c.isDigit = true) ∧ a = d ++ '>' :: r := by
  cases a with
  | nil => simp [parseNum] at h
  | cons c a' =>
    by_cases hd : c.isDigit
    · rw [show parseNum (c :: a') = parseNumCont a' from by
        simp [parseNum, hd]] at h
      obtain ⟨d', hd', ha'⟩ := parseNumCont_inv a' r h
      exact ⟨c :: d', by simp, by
        intro x hx
        rcases List.mem_cons.mp hx with rfl | hx
        exacts [hd, hd' x hx], by rw [List.cons_append, ha']⟩
    · simp [parseNum, hd] at h

/-- Inversion of the marker parse: a successful parse exhibits the marker. -/
theorem markerAt_inv (x r : List Char) (h : markerAt x = some r) :
    ∃ d, d ≠ [] ∧ (∀ c ∈ d, c.isDigit = true) ∧ x = markerOfDigits d ++ r := by
  unfold markerAt at h
  split at h
  · next hb =>
    obtain ⟨x', rfl⟩ := List.isPrefixOf_iff_prefix.mp hb
    rw [List.drop_left] at h
    obtain ⟨d, hne, hd, hx'⟩ := parseNum_inv x' r h
    exact ⟨d, hne, hd, by rw [hx', markerOfDigits, List.append_assoc]; rfl⟩
  · exact absurd h (by simp)

/-- A successful marker parse survives appending an arbitrary remainder. -/
theorem markerAt_extend (x r y : List Char) (h : markerAt x = some r) :
    markerAt (x ++ y) = some (r ++ y) := by
  obtain ⟨d, hne, hd, rfl⟩ := markerAt_inv x r h
  rw [List.append_assoc]
  exact markerAt_markerOfDigits d (r ++ y) hne hd

/-- Stripping whitespace preserves marker-freedom: the stripped string is an
inner segment of the original, and a marker inside it would extend to a
marker inside the original. -/
theorem noMarker_pyStrip (f : List Char) (h : noMarker f) :
    noMarker (pyStrip f) := by
  obtain ⟨t1, ht1⟩ := List.dropWhile_suffix (l := f) Char.isWhitespace
  obtain ⟨u, hu⟩ :=
    List.dropWhile_suffix (l := (f.dropWhile Char.isWhitespace).reverse)
      Char.isWhitespace
  have hsplit : f = t1 ++ (pyStrip f ++ u.reverse) := by
    have hy : f.dropWhile Char.isWhitespace = pyStrip f ++ u.reverse := by
      have := congrArg List.reverse hu
      rw [List.reverse_append, List.reverse_reverse] at this
      exact this.symm
    conv_lhs => rw [← ht1, hy]
  intro i hi
  cases hm : markerAt ((pyStrip f).drop i) with
  | none => rfl
  | some r =>
    exfalso
    have hext : markerAt ((pyStrip f).drop i ++ u.reverse)
        = some (r ++ u.reverse) := markerAt_extend _ r u.reverse hm
    have hpos : f.drop (t1.length + i) = (pyStrip f).drop i ++ u.reverse := by
      conv_lhs => rw [hsplit]
      rw [List.drop_append, List.drop_append_of_le_length (le_of_lt hi)]
    have := noMarker_all f h (t1.length + i)
    rw [hpos, hext] at this
    exact absurd this (by simp)

/-- C7 (amended): for every raw decoded string that — after removing the
literal `<pad>`/`</s>` markers and trimming — decomposes into a marker-free
prefix followed by `N` placeholder markers each carrying a non-empty fill
text (the text up to the next marker or the end), where no fill contains a
placeholder marker as a substring and no fill's trimmed text contains a
newline, the extractor returns exactly the `N` whitespace-trimmed fill texts
in order of appearance, none containing a placeholder marker. -/
theorem extractor_spec (raw pre : List Char) (pairs : List (List Char × List Char))
    (hdecomp : cleanRaw raw = pre ++ renderFills pairs)
    (hpre : noMarker pre)
    (hpairs : ∀ p ∈ pairs, p.1 ≠ [] ∧ (∀ c ∈ p.1, c.isDigit = true) ∧
      noMarker p.2 ∧ p.2 ≠ [] ∧ '\n' ∉ pyStrip p.2) :
    extract_fills raw = pairs.map (fun p => pyStrip p.2) ∧
    (extract_fills raw).length = pairs.length ∧
    ∀ g ∈ extract_fills raw, noMarker g := by
  have h1 : extract_fills raw = pairs.map (fun p => pyStrip p.2) := by
    unfold extract_fills
    rw [hdecomp, scanAux_append_noMarker pre _ hpre (renderFills_shape pairs)]
    exact scanAux_renderFills pairs (fun p hp =>
      ⟨(hpairs p hp).1, (hpairs p hp).2.1, (hpairs p hp).2.2.1,
        (hpairs p hp).2.2.2.2⟩)
  refine ⟨h1, by rw [h1, List.length_map], ?_⟩
  intro g hg
  rw [h1] at hg
  obtain ⟨p, hp, hpe⟩ := List.mem_map.mp hg
  rw [← hpe]
  exact noMarker_pyStrip p.2 (hpairs p hp).2.2.1

/-- Witness for `extractor_spec`: the prefix contains a bare `'<'`, one fill
contains a bare `'<'` and another an unclosed marker fragment — all
marker-free, so extraction returns exactly the two trimmed fills. -/
theorem extractor_spec_witness :
    extract_fills
        "<pad>x<y <extra_id_0> a < b <extra_id_1> abc<extra_id_7 </s>".toList
      = ["a < b".toList, "abc<extra_id_7".toList] := by
  have h := (extractor_spec
      "<pad>x<y <extra_id_0> a < b <extra_id_1> abc<extra_id_7 </s>".toList
      "x<y ".toList
      [(['0'], " a < b ".toList), (['1'], " abc<extra_id_7".toList)]
      (by decide) (by decide) (by decide)).1
  exact h.trans (by decide)
